import Mathlib

/-!
Verification of the upgrade-step consolidation engine of the jss-upgrade-poc
repository (`src/services/upgradeStepRepository` and friends).  The TypeScript
source is shallowly embedded: JS numbers holding versions become `Int`, JS
strings become `String` (lists of characters), optional record fields become
`Option`, JS `Map`/`Set` (insertion ordered) become association lists / lists
without duplicates, and the stable `Array.prototype.sort` becomes
`List.mergeSort`.  The regex rewrites used by the source are embedded as
explicit leftmost, greedy scanners over `List Char`.
-/

/-- The UpgradeStep record from `src/types/upgrade-step.ts`.  The `from` and `to`
fields are named `from'` and `to'` because both are Lean keywords. -/
structure UpgradeStep where
  instruction : String
  detailedDescription : String
  from' : Int
  to' : Int
  stepType : Option String := none
  affectedFile : Option String := none
deriving DecidableEq

/-! ## Regex machinery

The source rewrites text with the JS regexes `/\d+\.\d+(\.\d+)?/`,
`/to \d+\.\d+(\.\d+)?/`, `/version \d+\.\d+(\.\d+)?/` and `/@\^\d+\.\d+(\.\d+)?/`,
with or without the `g` (global) and `i` (case-insensitive) flags.  Each of
these is a literal prefix followed by a version-number token, so one scanner
parametrised by the literal covers them all. -/

/-- Length of the greedy run of decimal digits at the head of the list
(the match of `\d+` anchored here). -/
def digitRun (cs : List Char) : Nat := (cs.takeWhile Char.isDigit).length

/-- Length of the match of `\d+\.\d+(\.\d+)?` anchored at the start of `cs`,
with JS greedy semantics, or `none` when the pattern does not match here. -/
def matchVersionAt (cs : List Char) : Option Nat :=
  let d1 := digitRun cs
  if d1 = 0 then none
  else
    match cs.drop d1 with
    | '.' :: rest1 =>
      let d2 := digitRun rest1
      if d2 = 0 then none
      else
        match rest1.drop d2 with
        | '.' :: rest2 =>
          let d3 := digitRun rest2
          if d3 = 0 then some (d1 + 1 + d2) else some (d1 + 1 + d2 + 1 + d3)
        | _ => some (d1 + 1 + d2)
    | _ => none

theorem matchVersionAt_pos {cs : List Char} {n : Nat} (h : matchVersionAt cs = some n) :
    0 < n := by
  unfold matchVersionAt at h
  dsimp only at h
  split at h
  · exact absurd h (by simp)
  · split at h
    · split at h
      · exact absurd h (by simp)
      · split at h
        · split at h <;> · rw [Option.some.injEq] at h; omega
        · rw [Option.some.injEq] at h; omega
    · exact absurd h (by simp)

/-- One pattern character matches one subject character; under the `i` flag the
subject is lowered first (every pattern literal in the source is lowercase). -/
def charMatches (ci : Bool) (p c : Char) : Bool :=
  if ci then c.toLower = p else c = p

/-- Does the literal `lit` match at the start of `cs` (case-insensitively when
`ci` is set)? -/
def litMatchAt (ci : Bool) : List Char → List Char → Bool
  | [], _ => true
  | _ :: _, [] => false
  | p :: ps, c :: cs => charMatches ci p c && litMatchAt ci ps cs

/-- Length of the match of "literal `lit` followed by a version number" anchored
at the start of `cs`, or `none`. -/
def matchLitVer (lit : List Char) (ci : Bool) (cs : List Char) : Option Nat :=
  if litMatchAt ci lit cs then
    match matchVersionAt (cs.drop lit.length) with
    | some n => some (lit.length + n)
    | none => none
  else none

theorem matchLitVer_pos {lit : List Char} {ci : Bool} {cs : List Char} {n : Nat}
    (h : matchLitVer lit ci cs = some n) : 0 < n := by
  unfold matchLitVer at h
  split at h
  · split at h
    · rename_i m hm
      rw [Option.some.injEq] at h
      have := matchVersionAt_pos hm
      omega
    · exact absurd h (by simp)
  · exact absurd h (by simp)

/-- The scan loop of JS `String.replace` with a global (`g`) literal-plus-version
regex, structurally recursive on a fuel bounding the subject's length: replace
every non-overlapping leftmost match with `repl` and resume after the match.
Matches always have length ≥ 1 (`matchLitVer_pos`), so dropping `n - 1`
characters of the tail is dropping `n` characters of the whole, and one unit of
fuel per character suffices. -/
def replaceAllLVFuel (lit : List Char) (ci : Bool) (repl : List Char) :
    Nat → List Char → List Char
  | 0, cs => cs
  | _ + 1, [] => []
  | fuel + 1, c :: rest =>
    match matchLitVer lit ci (c :: rest) with
    | some n => repl ++ replaceAllLVFuel lit ci repl fuel (rest.drop (n - 1))
    | none => c :: replaceAllLVFuel lit ci repl fuel rest

/-- JS `String.replace` with a global (`g`) literal-plus-version regex. -/
def replaceAllLV (lit : List Char) (ci : Bool) (repl : List Char) (cs : List Char) :
    List Char :=
  replaceAllLVFuel lit ci repl cs.length cs

/-- JS `String.replace` with a non-global literal-plus-version regex: replace
only the leftmost match, keep the rest verbatim. -/
def replaceFirstLV (lit : List Char) (ci : Bool) (repl : List Char) :
    List Char → List Char
  | [] => []
  | c :: rest =>
    match matchLitVer lit ci (c :: rest) with
    | some n => repl ++ rest.drop (n - 1)
    | none => c :: replaceFirstLV lit ci repl rest

/-- Does the literal-plus-version pattern match anywhere in `cs`? -/
def hasMatchLV (lit : List Char) (ci : Bool) : List Char → Bool
  | [] => false
  | c :: rest => (matchLitVer lit ci (c :: rest)).isSome || hasMatchLV lit ci rest

/-- String-level global replace of "literal + version number". -/
def replaceAllPat (lit : String) (ci : Bool) (repl : String) (s : String) : String :=
  String.mk (replaceAllLV lit.data ci repl.data s.data)

/-- String-level first-occurrence replace of "literal + version number". -/
def replaceFirstPat (lit : String) (ci : Bool) (repl : String) (s : String) : String :=
  String.mk (replaceFirstLV lit.data ci repl.data s.data)

theorem replaceFirstLV_of_no_match {lit : List Char} {ci : Bool} {repl cs : List Char}
    (h : hasMatchLV lit ci cs = false) : replaceFirstLV lit ci repl cs = cs := by
  induction cs with
  | nil => rfl
  | cons c rest ih =>
    rw [hasMatchLV, Bool.or_eq_false_iff] at h
    obtain ⟨h1, h2⟩ := h
    rw [replaceFirstLV]
    cases hm : matchLitVer lit ci (c :: rest) with
    | some n => rw [hm] at h1; simp at h1
    | none => simp only [hm]; rw [ih h2]

theorem replaceAllLVFuel_of_no_match {lit : List Char} {ci : Bool} {repl : List Char} :
    ∀ (fuel : Nat) (cs : List Char), hasMatchLV lit ci cs = false →
      replaceAllLVFuel lit ci repl fuel cs = cs := by
  intro fuel
  induction fuel with
  | zero => intro cs _; rfl
  | succ fuel ih =>
    intro cs h
    match cs with
    | [] => rfl
    | c :: rest =>
      rw [hasMatchLV, Bool.or_eq_false_iff] at h
      obtain ⟨h1, h2⟩ := h
      rw [replaceAllLVFuel]
      cases hm : matchLitVer lit ci (c :: rest) with
      | some n => rw [hm] at h1; simp at h1
      | none => simp only [hm]; rw [ih rest h2]

theorem replaceAllLV_of_no_match {lit : List Char} {ci : Bool} {repl cs : List Char}
    (h : hasMatchLV lit ci cs = false) : replaceAllLV lit ci repl cs = cs :=
  replaceAllLVFuel_of_no_match cs.length cs h

/-! ### Character-level string primitives

JS `toLowerCase`, `trim`, `split`, `startsWith` and `endsWith` are embedded
over `List Char` (the catalog text is ASCII, for which `Char.toLower` and
`Char.isWhitespace` agree with the JS semantics). -/

/-- JS `toLowerCase`. -/
def toLowerS (s : String) : String :=
  String.mk (s.data.map Char.toLower)

/-- JS `trim`: drop whitespace from both ends. -/
def trimL (cs : List Char) : List Char :=
  ((cs.dropWhile Char.isWhitespace).reverse.dropWhile Char.isWhitespace).reverse

/-- JS `trim` on a string. -/
def trimS (s : String) : String :=
  String.mk (trimL s.data)

/-- JS `startsWith` on character lists. -/
def startsWithChars : List Char → List Char → Bool
  | [], _ => true
  | _ :: _, [] => false
  | p :: ps, c :: cs => p = c && startsWithChars ps cs

/-- JS `endsWith` on character lists. -/
def endsWithChars (suf cs : List Char) : Bool :=
  startsWithChars suf.reverse cs.reverse

/-- The accumulator loop of JS `split('\n')`. -/
def splitNLGo (acc : List Char) : List Char → List String
  | [] => [String.mk acc.reverse]
  | c :: rest =>
    if c = '\n' then String.mk acc.reverse :: splitNLGo [] rest
    else splitNLGo (c :: acc) rest

/-- JS `split('\n')`. -/
def splitNL (s : String) : List String :=
  splitNLGo [] s.data

/-! ## Repository functions (`JsonUpgradeStepRepository`) -/

/-- The closed priority table shared (verbatim, twice) by `getMostImportantStepType`
and `getStepTypePriority` in the source: `typePriority[t] || 10`. -/
def typePriorityLookup (t : String) : Int :=
  if t = "package-update" then 1
  else if t = "dependencies" then 2
  else if t = "configuration" then 3
  else if t = "code-update" then 4
  else if t = "testing" then 5
  else if t = "deployment" then 6
  else 10

/-- `getStepTypePriority`: `priorities[stepType || 'default'] || 10` — an absent,
empty or unknown type yields 10. -/
def getStepTypePriority (stepType : Option String) : Int :=
  match stepType with
  | some t => typePriorityLookup t
  | none => 10

/-- `shouldConsolidate`: membership in the fixed list. -/
def shouldConsolidate (stepType : String) : Bool :=
  stepType = "package-update" || stepType = "dependencies" || stepType = "configuration"

/-- The grouping test in `consolidateByType`: `step.stepType && shouldConsolidate(step.stepType)`
(an absent or empty string stepType is falsy in JS). -/
def consolidatableStep (s : UpgradeStep) : Bool :=
  match s.stepType with
  | some t => !(t = "") && shouldConsolidate t
  | none => false

/-- The file test in `consolidateByAffectedFile`: `step.affectedFile` truthiness. -/
def hasAffectedFile (s : UpgradeStep) : Bool :=
  match s.affectedFile with
  | some f => !(f = "")
  | none => false

/-- Insertion into a JS `Map<string, UpgradeStep[]>` used for grouping: find the
key (insertion order preserved), push at the end of its bucket, or append a new
singleton bucket. -/
def addToGroup (k : String) (s : UpgradeStep) :
    List (String × List UpgradeStep) → List (String × List UpgradeStep)
  | [] => [(k, [s])]
  | (k', g) :: rest =>
    if k' = k then (k', g ++ [s]) :: rest else (k', g) :: addToGroup k s rest

/-- `Math.min(...packageSteps.map(s => s.from))` over a non-empty list
(0 is an arbitrary value for the unreachable empty case). -/
def minFromList : List UpgradeStep → Int
  | [] => 0
  | s :: rest => rest.foldl (fun acc t => min acc t.from') s.from'

/-- `consolidatePackageUpdates`: merge a package-update group into one step.
The instruction rewrite uses the non-global regexes `/to \d+\.\d+(\.\d+)?/` and
`/\d+\.\d+(\.\d+)?/` (first occurrence only); the description rewrite uses the
global regexes `/@\^\d+\.\d+(\.\d+)?/g`, `/version \d+\.\d+(\.\d+)?/g` and
`/to \d+\.\d+(\.\d+)?/g`. -/
def consolidatePackageUpdates (packageSteps : List UpgradeStep) (targetVersion : Int) :
    Option UpgradeStep :=
  match packageSteps with
  | [] => none
  | firstStep :: _ =>
    let minVersion := minFromList packageSteps
    let baseInstruction :=
      replaceFirstPat "" false "" (replaceFirstPat "to " false "" firstStep.instruction)
    let consolidatedInstruction := trimS baseInstruction ++ " to " ++ toString targetVersion
    let updatedDetailedDescription :=
      replaceAllPat "to " false ("to " ++ toString targetVersion)
        (replaceAllPat "version " false ("version " ++ toString targetVersion)
          (replaceAllPat "@^" false ("@^" ++ toString targetVersion)
            firstStep.detailedDescription))
    some { instruction := consolidatedInstruction
           detailedDescription := updatedDetailedDescription
           from' := minVersion
           to' := targetVersion
           stepType := firstStep.stepType
           affectedFile := none }

/-- `hashInstruction`: the md5 digest of the trimmed, lowercased instruction.
The digest is modelled as the (injective) identity on the normalized text, which
is the equality the source uses it for. -/
def hashInstruction (instruction : String) : String :=
  toLowerS (trimS instruction)

/-- The filter loop of `removeDuplicateInstructions` with its `seenInstructions`
set (a JS `Set<string>` of hashes, modelled as a list). -/
def removeDuplicateInstructionsGo (seenInstructions : List String) :
    List UpgradeStep → List UpgradeStep
  | [] => []
  | step :: rest =>
    if hashInstruction step.instruction ∈ seenInstructions then
      removeDuplicateInstructionsGo seenInstructions rest
    else
      step :: removeDuplicateInstructionsGo (hashInstruction step.instruction :: seenInstructions) rest

/-- `removeDuplicateInstructions`: keep the first step of each hash class. -/
def removeDuplicateInstructions (steps : List UpgradeStep) : List UpgradeStep :=
  removeDuplicateInstructionsGo [] steps

/-- The per-step base-instruction computation in `getUniqueInstructions`:
`instruction.replace(/to \d+\.\d+(\.\d+)?/gi, '').replace(/version \d+\.\d+(\.\d+)?/gi, '')
.replace(/\d+\.\d+(\.\d+)?/g, '').trim()`. -/
def baseInstructionOf (instruction : String) : String :=
  trimS (replaceAllPat "" false ""
    (replaceAllPat "version " true ""
      (replaceAllPat "to " true "" instruction)))

/-- Adding one base instruction to the `Set<string>` of `getUniqueInstructions`:
falsy (empty) strings are skipped, duplicates collapse, insertion order kept. -/
def addUniqueNonEmpty (acc : List String) (x : String) : List String :=
  if x = "" then acc else if x ∈ acc then acc else acc ++ [x]

/-- `getUniqueInstructions`: the insertion-ordered set of non-empty base
instructions of the steps. -/
def getUniqueInstructions (steps : List UpgradeStep) : List String :=
  steps.foldl (fun acc s => addUniqueNonEmpty acc (baseInstructionOf s.instruction)) []

/-- `createConsolidatedInstruction`. -/
def createConsolidatedInstruction (instructions : List String) (fileName : String) : String :=
  if instructions.length = 1 then "Update " ++ fileName ++ " configuration"
  else "Update " ++ fileName ++ " with multiple configuration changes"

/-- `getMostImportantStepType`: fold over the steps keeping the first stepType of
strictly smallest priority; `Infinity` is modelled as a bound larger than every
table entry; falsy (absent/empty) stepTypes are skipped; `'' || 'configuration'`
is the final default. -/
def getMostImportantStepType (steps : List UpgradeStep) : String :=
  let result := steps.foldl (fun (acc : String × Int) s =>
    match s.stepType with
    | none => acc
    | some t =>
      if t = "" then acc
      else if typePriorityLookup t < acc.2 then (t, typePriorityLookup t) else acc)
    ("", (1000000 : Int))
  if result.1 = "" then "configuration" else result.1

/-! ### `mergeDetailedDescriptions` -/

/-- Test of `/^\d+\.\s*\*\*/` against a (trimmed) line: digits, a dot, optional
whitespace, then `**`. -/
def matchesNumberedBoldHeader (cs : List Char) : Bool :=
  let d := digitRun cs
  if d = 0 then false
  else
    match cs.drop d with
    | '.' :: rest => (rest.dropWhile Char.isWhitespace).take 2 = ['*', '*']
    | _ => false

/-- Test of `/^\d+\./` against a line. -/
def startsWithNumberDot (s : String) : Bool :=
  let cs := s.data
  let d := digitRun cs
  if d = 0 then false
  else
    match cs.drop d with
    | '.' :: _ => true
    | _ => false

/-- The header test in `mergeDetailedDescriptions`:
`trimmedLine.match(/^\d+\.\s*\*\*/) || trimmedLine.startsWith('**') && trimmedLine.endsWith('**')`. -/
def isSectionHeaderLine (trimmedLine : String) : Bool :=
  matchesNumberedBoldHeader trimmedLine.data ||
    (startsWithChars "**".data trimmedLine.data && endsWithChars "**".data trimmedLine.data)

/-- `trimmed.replace(/^\d+\.\s*/, '')`: strip a leading "digits dot whitespace"
run if present. -/
def stripLeadingNumberDot (cs : List Char) : List Char :=
  let d := digitRun cs
  if d = 0 then cs
  else
    match cs.drop d with
    | '.' :: rest => rest.dropWhile Char.isWhitespace
    | _ => cs

/-- `.replace(/\*\*/g, '')`: delete every (non-overlapping, leftmost) `**`. -/
def removeDoubleStars : List Char → List Char
  | '*' :: '*' :: rest => removeDoubleStars rest
  | c :: rest => c :: removeDoubleStars rest
  | [] => []

/-- The section name derived from a header line:
`trimmed.replace(/^\d+\.\s*/, '').replace(/\*\*/g, '').toLowerCase()`. -/
def sectionNameOf (trimmedLine : String) : String :=
  toLowerS (String.mk (removeDoubleStars (stripLeadingNumberDot trimmedLine.data)))

/-- Adding a line to a JS `Set<string>`: duplicates collapse, insertion order kept. -/
def addLineToSet (acc : List String) (x : String) : List String :=
  if x ∈ acc then acc else acc ++ [x]

/-- `sections.get(name).add(line)` with create-if-absent, on the insertion-ordered
`Map<string, Set<string>>`. -/
def addToSection (name : String) (line : String) :
    List (String × List String) → List (String × List String)
  | [] => [(name, [line])]
  | (k, ls) :: rest =>
    if k = name then (k, addLineToSet ls line) :: rest
    else (k, ls) :: addToSection name line rest

/-- Flushing `currentContent` into `sections[currentSection]` (a no-op when the
content set is empty, as in the source's `size > 0` guard). -/
def flushSection (sections : List (String × List String)) (name : String)
    (content : List String) : List (String × List String) :=
  if content.length = 0 then sections
  else content.foldl (fun m c => addToSection name c m) sections

/-- The per-line loop of `mergeDetailedDescriptions` over one step's description. -/
def sectionLinesLoop (sections : List (String × List String)) (currentSection : String)
    (currentContent : List String) :
    List String → List (String × List String) × String × List String
  | [] => (sections, currentSection, currentContent)
  | line :: rest =>
    let trimmedLine := trimS line
    if isSectionHeaderLine trimmedLine then
      sectionLinesLoop (flushSection sections currentSection currentContent)
        (sectionNameOf trimmedLine) [] rest
    else if trimmedLine.length > 0 then
      sectionLinesLoop sections currentSection (addLineToSet currentContent trimmedLine) rest
    else
      sectionLinesLoop sections currentSection currentContent rest

/-- Processing one step's `detailedDescription` into the shared sections map
(split on newlines, implicit "general" section, final flush). -/
def processStepDescription (sections : List (String × List String)) (step : UpgradeStep) :
    List (String × List String) :=
  let lines := splitNL step.detailedDescription
  let res := sectionLinesLoop sections "general" [] lines
  flushSection res.1 res.2.1 res.2.2

/-- The content-line filter of the rebuild loop:
`!line.startsWith('```') && !line.match(/^\d+\./)`. -/
def keptContentLines (content : List String) : List String :=
  content.filter (fun line => !startsWithChars "```".data line.data && !startsWithNumberDot line)

/-- The rebuild loop of `mergeDetailedDescriptions`: emit a renumbered header for
every non-"general" section, then its kept content lines, then a blank spacer. -/
def rebuildSections : List (String × List String) → Nat → List String
  | [], _ => []
  | (name, content) :: rest, sectionIndex =>
    if name = "general" then
      keptContentLines content ++ [""] ++ rebuildSections rest sectionIndex
    else
      (toString sectionIndex ++ ". **" ++ name ++ "**:") ::
        (keptContentLines content ++ [""] ++ rebuildSections rest (sectionIndex + 1))

/-- `mergeDetailedDescriptions`. -/
def mergeDetailedDescriptions (steps : List UpgradeStep) : String :=
  let sections := steps.foldl processStepDescription []
  trimS (String.intercalate "\n" (rebuildSections sections 1))

/-! ### File consolidation -/

/-- The comparator `(a, b) => a.from - b.from` of `consolidateFileSteps`, as the
"sorts before or ties" Boolean relation of the stable JS sort. -/
def fileSortLE (a b : UpgradeStep) : Bool :=
  decide (a.from' ≤ b.from')

instance : Inhabited UpgradeStep :=
  ⟨{ instruction := "", detailedDescription := "", from' := 0, to' := 0 }⟩

/-- `consolidateFileSteps`: merge all steps touching one file into a single step.
The source returns `null` for an empty group; sorting is the stable JS sort by
`from`; `firstStep`/`lastStep` are `sortedSteps[0]` and
`sortedSteps[sortedSteps.length - 1]`. -/
def consolidateFileSteps (fileSteps : List UpgradeStep) (fileName : String) :
    Option UpgradeStep :=
  if fileSteps.length = 0 then none
  else
    let sortedSteps := fileSteps.mergeSort fileSortLE
    let firstStep := sortedSteps.headI
    let lastStep := sortedSteps.getLastI
    some { instruction := createConsolidatedInstruction (getUniqueInstructions sortedSteps) fileName
           detailedDescription := mergeDetailedDescriptions sortedSteps
           from' := firstStep.from'
           to' := lastStep.to'
           stepType := some (getMostImportantStepType sortedSteps)
           affectedFile := some fileName }

/-- The insertion-ordered `Map<string, UpgradeStep[]>` of `consolidateByAffectedFile`. -/
def fileGroups (steps : List UpgradeStep) : List (String × List UpgradeStep) :=
  (steps.filter hasAffectedFile).foldl
    (fun m s => addToGroup (s.affectedFile.getD "") s m) []

/-- The per-group output of `consolidateByAffectedFile`: a singleton group passes
through unchanged, a larger group is merged (the `null` of the unreachable empty
case contributes nothing). -/
def fileGroupResult (p : String × List UpgradeStep) : List UpgradeStep :=
  if p.2.length = 1 then p.2
  else (consolidateFileSteps p.2 p.1).toList

/-- `consolidateByAffectedFile`: merged file groups in key-first-seen order,
followed by the steps without a (truthy) affected file in their original order. -/
def consolidateByAffectedFile (steps : List UpgradeStep) : List UpgradeStep :=
  (fileGroups steps).flatMap fileGroupResult ++
    steps.filter (fun s => !hasAffectedFile s)

/-! ### Type consolidation and the pipeline -/

/-- The insertion-ordered `Map<string, UpgradeStep[]>` of `consolidateByType`. -/
def typeGroups (steps : List UpgradeStep) : List (String × List UpgradeStep) :=
  (steps.filter consolidatableStep).foldl
    (fun m s => addToGroup (s.stepType.getD "") s m) []

/-- The per-group output of `consolidateByType`: the `package-update` group is
merged wholesale, every other consolidatable group is deduplicated. -/
def typeGroupResult (targetVersion : Int) (p : String × List UpgradeStep) :
    List UpgradeStep :=
  if p.1 = "package-update" then (consolidatePackageUpdates p.2 targetVersion).toList
  else removeDuplicateInstructions p.2

/-- `consolidateByType`: consolidated groups in key-first-seen order, followed by
the non-consolidatable steps in their original order. -/
def consolidateByType (steps : List UpgradeStep) (targetVersion : Int) :
    List UpgradeStep :=
  (typeGroups steps).flatMap (typeGroupResult targetVersion) ++
    steps.filter (fun s => !consolidatableStep s)

/-- `consolidateSimilarSteps`: type consolidation, then file consolidation. -/
def consolidateSimilarSteps (steps : List UpgradeStep) (targetVersion : Int) :
    List UpgradeStep :=
  consolidateByAffectedFile (consolidateByType steps targetVersion)

/-- The range-filter stage of `getUpgradeSteps`:
`allSteps.filter(step => step.from >= fromVersion && step.to <= toVersion)`. -/
def relevantSteps (allSteps : List UpgradeStep) (fromVersion toVersion : Int) :
    List UpgradeStep :=
  allSteps.filter (fun step => decide (step.from' ≥ fromVersion) && decide (step.to' ≤ toVersion))

/-- The final comparator of `getUpgradeSteps` (type priority, then `from`, then
`to`) as the "sorts before or ties" Boolean relation of the stable JS sort. -/
def stepSortLE (a b : UpgradeStep) : Bool :=
  if getStepTypePriority a.stepType ≠ getStepTypePriority b.stepType then
    decide (getStepTypePriority a.stepType < getStepTypePriority b.stepType)
  else if a.from' ≠ b.from' then decide (a.from' < b.from')
  else decide (a.to' ≤ b.to')

/-- `getUpgradeSteps` on an already-loaded catalog: filter to the window,
consolidate, stable-sort. -/
def getUpgradeSteps (allSteps : List UpgradeStep) (fromVersion toVersion : Int) :
    List UpgradeStep :=
  (consolidateSimilarSteps (relevantSteps allSteps fromVersion toVersion) toVersion).mergeSort
    stepSortLE

/-! ### Data-loading adapter and `hasUpgradePath` -/

/-- JS `framework.replace('.', '')`: remove the first `.` only. -/
def removeFirstDotL : List Char → List Char
  | [] => []
  | c :: rest => if c = '.' then rest else c :: removeFirstDotL rest

/-- The framework key of `loadStepsFromFile`: `framework.toLowerCase().replace('.', '')`. -/
def frameworkKeyOf (framework : String) : String :=
  String.mk (removeFirstDotL (toLowerS framework).data)

/-- The source's `try { return ... } catch { return [] }` around a catalog load. -/
def catchLoad : Except String (List UpgradeStep) → List UpgradeStep
  | .ok steps => steps
  | .error _ => []

/-- `loadStepsFromFile`.  The bundled JSON catalogs live outside the shared
source; the loader is therefore parametrised by the load outcome per supported
key, a failed load being caught and degraded to an empty list. -/
def loadStepsFromFile (load : String → Except String (List UpgradeStep))
    (framework : String) : List UpgradeStep :=
  let frameworkKey := frameworkKeyOf framework
  if frameworkKey = "nextjs" then catchLoad (load "nextjs")
  else if frameworkKey = "angular" then catchLoad (load "angular")
  else []

/-- The repository entry point: load, then run the pipeline. -/
def getUpgradeStepsFor (load : String → Except String (List UpgradeStep))
    (framework : String) (fromVersion toVersion : Int) : List UpgradeStep :=
  getUpgradeSteps (loadStepsFromFile load framework) fromVersion toVersion

/-- `hasUpgradePath`: `steps.length > 0`. -/
def hasUpgradePath (load : String → Except String (List UpgradeStep))
    (framework : String) (fromVersion toVersion : Int) : Bool :=
  decide ((getUpgradeStepsFor load framework fromVersion toVersion).length > 0)

/-! ## Helper lemmas -/

theorem foldl_min_le_init (l : List UpgradeStep) (init : Int) :
    l.foldl (fun acc t => min acc t.from') init ≤ init := by
  induction l generalizing init with
  | nil => simp
  | cons t rest ih => exact le_trans (ih (min init t.from')) (min_le_left _ _)

theorem foldl_min_le_mem (l : List UpgradeStep) (init : Int) :
    ∀ s ∈ l, l.foldl (fun acc t => min acc t.from') init ≤ s.from' := by
  induction l generalizing init with
  | nil => simp
  | cons t rest ih =>
    intro s hs
    rcases List.mem_cons.mp hs with h | h
    · subst h
      exact le_trans (foldl_min_le_init rest (min init s.from')) (min_le_right _ _)
    · exact ih (min init t.from') s h

theorem foldl_min_mem (l : List UpgradeStep) (init : Int) :
    l.foldl (fun acc t => min acc t.from') init = init ∨
      ∃ s ∈ l, l.foldl (fun acc t => min acc t.from') init = s.from' := by
  induction l generalizing init with
  | nil => simp
  | cons t rest ih =>
    rcases ih (min init t.from') with h | ⟨s, hs, h⟩
    · simp only [List.foldl_cons] at *
      rcases min_cases init t.from' with ⟨hmin, _⟩ | ⟨hmin, _⟩
      · left; rw [h, hmin]
      · right; exact ⟨t, List.mem_cons_self t rest, by rw [h, hmin]⟩
    · right; exact ⟨s, List.mem_cons_of_mem t hs, h⟩

theorem minFromList_le (l : List UpgradeStep) : ∀ s ∈ l, minFromList l ≤ s.from' := by
  intro s hs
  match l with
  | [] => cases hs
  | t :: rest =>
    rcases List.mem_cons.mp hs with h | h
    · subst h
      exact foldl_min_le_init rest s.from'
    · exact foldl_min_le_mem rest t.from' s h

theorem minFromList_mem (l : List UpgradeStep) (hne : l ≠ []) :
    minFromList l ∈ l.map UpgradeStep.from' := by
  match l with
  | [] => exact absurd rfl hne
  | t :: rest =>
    show rest.foldl (fun acc u => min acc u.from') t.from' ∈ _
    rcases foldl_min_mem rest t.from' with h | ⟨s, hs, h⟩
    · rw [h]; exact List.mem_map_of_mem UpgradeStep.from' (List.mem_cons_self t rest)
    · rw [h]; exact List.mem_map_of_mem UpgradeStep.from' (List.mem_cons_of_mem t hs)

/-! ## Claim theorems -/

/-- C1: for every catalog and request window, the range-filter stage returns
exactly the subsequence of catalog steps `s` with `fromVersion ≤ s.from` and
`s.to ≤ toVersion`, in their original order (an inclusive-containment test, not
an overlap test), and every returned step is fully contained in the window. -/
theorem c1_range_filter (catalog : List UpgradeStep) (fromVersion toVersion : Int) :
    List.Sublist (relevantSteps catalog fromVersion toVersion) catalog ∧
    relevantSteps catalog fromVersion toVersion =
      catalog.filter (fun s => decide (fromVersion ≤ s.from' ∧ s.to' ≤ toVersion)) ∧
    ∀ s ∈ relevantSteps catalog fromVersion toVersion,
      fromVersion ≤ s.from' ∧ s.to' ≤ toVersion := by
  refine ⟨List.filter_sublist _, ?_, ?_⟩
  · unfold relevantSteps
    apply List.filter_congr
    intro s _
    simp [ge_iff_le, Bool.decide_and]
  · intro s hs
    unfold relevantSteps at hs
    have := (List.mem_filter.mp hs).2
    simp only [Bool.and_eq_true, decide_eq_true_eq, ge_iff_le] at this
    exact this

/-- A sample catalog step used by the concrete witnesses. -/
def wStepA : UpgradeStep :=
  { instruction := "Update packages to 2.0"
    detailedDescription := "run npm install pkg@^2.0"
    from' := 1
    to' := 2
    stepType := some "package-update" }

/-- A second sample catalog step used by the concrete witnesses. -/
def wStepB : UpgradeStep :=
  { instruction := "Update packages to 3.0"
    detailedDescription := "run npm install pkg@^3.0"
    from' := 2
    to' := 3
    stepType := some "package-update" }

/-- Witness for C1: the containment part evaluated on a concrete catalog. -/
theorem c1_range_filter_witness :
    wStepA ∈ relevantSteps [wStepA, wStepB] 1 2 ∧ 1 ≤ wStepA.from' ∧ wStepA.to' ≤ 2 :=
  have hmem : wStepA ∈ relevantSteps [wStepA, wStepB] 1 2 := by decide
  ⟨hmem, (c1_range_filter [wStepA, wStepB] 1 2).2.2 wStepA hmem⟩

/-- C2: a non-empty group of package-update steps is merged into exactly one step
whose `from` is the minimum `from` of the group, whose `to` is the request
window's upper bound `targetVersion` (not the maximum `to` of the data), whose
stepType is `package-update`, and which carries no affectedFile; an empty group
emits nothing. -/
theorem c2_package_update_merge (packageSteps : List UpgradeStep) (targetVersion : Int)
    (hne : packageSteps ≠ [])
    (hty : ∀ s ∈ packageSteps, s.stepType = some "package-update") :
    consolidatePackageUpdates ([] : List UpgradeStep) targetVersion = none ∧
    ∃ merged : UpgradeStep,
      consolidatePackageUpdates packageSteps targetVersion = some merged ∧
      merged.to' = targetVersion ∧
      merged.stepType = some "package-update" ∧
      merged.affectedFile = none ∧
      merged.from' ∈ packageSteps.map UpgradeStep.from' ∧
      ∀ s ∈ packageSteps, merged.from' ≤ s.from' := by
  refine ⟨rfl, ?_⟩
  match packageSteps, hne with
  | firstStep :: rest, _ =>
    refine ⟨_, rfl, rfl, ?_, rfl, ?_, ?_⟩
    · exact hty firstStep (List.mem_cons_self firstStep rest)
    · exact minFromList_mem (firstStep :: rest) (by simp)
    · exact minFromList_le (firstStep :: rest)

/-- Witness for C2 on a concrete two-step group. -/
theorem c2_package_update_merge_witness :
    ∃ merged : UpgradeStep,
      consolidatePackageUpdates [wStepA, wStepB] 4 = some merged ∧
      merged.to' = 4 ∧
      merged.stepType = some "package-update" ∧
      merged.affectedFile = none ∧
      merged.from' ∈ [wStepA, wStepB].map UpgradeStep.from' ∧
      ∀ s ∈ [wStepA, wStepB], merged.from' ≤ s.from' :=
  (c2_package_update_merge [wStepA, wStepB] 4 (by simp) (by decide)).2

/-- C9: when the requested window is inverted (`toVersion < fromVersion`) and the
catalog satisfies the data-model invariant `from ≤ to`, the pipeline raises no
error and returns the empty sequence. -/
theorem c9_inverted_window (catalog : List UpgradeStep) (fromVersion toVersion : Int)
    (hinv : ∀ s ∈ catalog, s.from' ≤ s.to') (hlt : toVersion < fromVersion) :
    getUpgradeSteps catalog fromVersion toVersion = [] := by
  have hfil : relevantSteps catalog fromVersion toVersion = [] := by
    unfold relevantSteps
    rw [List.filter_eq_nil_iff]
    intro s hs
    have := hinv s hs
    simp only [Bool.and_eq_true, decide_eq_true_eq, ge_iff_le, not_and]
    intro h1
    omega
  rw [getUpgradeSteps, hfil]
  have hcons : consolidateSimilarSteps [] toVersion = [] := rfl
  rw [hcons]
  exact List.mergeSort_nil

/-- Witness for C9 on a concrete catalog and inverted window. -/
theorem c9_inverted_window_witness : getUpgradeSteps [wStepA, wStepB] 5 3 = [] :=
  c9_inverted_window [wStepA, wStepB] 5 3 (by decide) (by decide)

/-- The claim's normalization, as worded: case-insensitive and
punctuation-insensitive — lowercase, then ignore every dot. -/
def specNormalizeFramework (framework : String) : String :=
  String.mk ((toLowerS framework).data.filter (fun c => !(c = '.')))

theorem filter_no_dot_eq_of_removeFirstDot {cs : List Char}
    (ht : '.' ∉ removeFirstDotL cs) :
    cs.filter (fun c => !(c = '.')) = removeFirstDotL cs := by
  induction cs with
  | nil => rfl
  | cons c rest ih =>
    by_cases hc : c = '.'
    · subst hc
      rw [removeFirstDotL] at ht ⊢
      simp only [if_pos rfl] at ht ⊢
      rw [List.filter_cons_of_neg (by simp)]
      exact List.filter_eq_self.mpr (fun a ha => by
        simp only [Bool.not_eq_true']
        exact decide_eq_false (fun he => ht (he ▸ ha)))
    · rw [removeFirstDotL] at ht ⊢
      simp only [if_neg hc] at ht ⊢
      rw [List.filter_cons_of_pos (by simp [hc])]
      rw [ih (fun hmem => ht (List.mem_cons_of_mem c hmem))]

theorem specNormalize_of_frameworkKey {framework key : String}
    (hkey : frameworkKeyOf framework = key) (hnd : '.' ∉ key.data) :
    specNormalizeFramework framework = key := by
  subst hkey
  unfold specNormalizeFramework frameworkKeyOf
  congr 1
  exact filter_no_dot_eq_of_removeFirstDot hnd

theorem getUpgradeSteps_nil (fromVersion toVersion : Int) :
    getUpgradeSteps [] fromVersion toVersion = [] := by
  rw [getUpgradeSteps]
  have h1 : relevantSteps [] fromVersion toVersion = [] := rfl
  rw [h1]
  have h2 : consolidateSimilarSteps [] toVersion = [] := rfl
  rw [h2]
  exact List.mergeSort_nil

/-- C8: a framework identifier that does not normalize (case- and
punctuation-insensitively) to a supported catalog key yields the empty sequence
and a false `hasUpgradePath`; and under a failing catalog load every framework
yields the empty sequence and a false `hasUpgradePath`.  The embedding is a
total function, so no error reaches the caller in either case. -/
theorem c8_unsupported_or_failed_load
    (load loadFail : String → Except String (List UpgradeStep))
    (framework other : String) (fromVersion toVersion : Int)
    (hun : specNormalizeFramework framework ≠ "nextjs" ∧
           specNormalizeFramework framework ≠ "angular")
    (hfail : ∀ key, ∃ msg, loadFail key = Except.error msg) :
    getUpgradeStepsFor load framework fromVersion toVersion = [] ∧
    hasUpgradePath load framework fromVersion toVersion = false ∧
    getUpgradeStepsFor loadFail other fromVersion toVersion = [] ∧
    hasUpgradePath loadFail other fromVersion toVersion = false := by
  have hload : loadStepsFromFile load framework = [] := by
    unfold loadStepsFromFile
    have h1 : frameworkKeyOf framework ≠ "nextjs" := fun h =>
      hun.1 (specNormalize_of_frameworkKey h (by decide))
    have h2 : frameworkKeyOf framework ≠ "angular" := fun h =>
      hun.2 (specNormalize_of_frameworkKey h (by decide))
    rw [if_neg h1, if_neg h2]
  have hloadFail : loadStepsFromFile loadFail other = [] := by
    unfold loadStepsFromFile
    obtain ⟨msg1, hm1⟩ := hfail "nextjs"
    obtain ⟨msg2, hm2⟩ := hfail "angular"
    by_cases h1 : frameworkKeyOf other = "nextjs"
    · rw [if_pos h1, hm1]; rfl
    · rw [if_neg h1]
      by_cases h2 : frameworkKeyOf other = "angular"
      · rw [if_pos h2, hm2]; rfl
      · rw [if_neg h2]
  have e1 : getUpgradeStepsFor load framework fromVersion toVersion = [] := by
    rw [getUpgradeStepsFor, hload]; exact getUpgradeSteps_nil _ _
  have e2 : getUpgradeStepsFor loadFail other fromVersion toVersion = [] := by
    rw [getUpgradeStepsFor, hloadFail]; exact getUpgradeSteps_nil _ _
  refine ⟨e1, ?_, e2, ?_⟩
  · rw [hasUpgradePath, e1]; rfl
  · rw [hasUpgradePath, e2]; rfl

/-- Witness for C8: the unsupported identifier "Vue" and an always-failing load. -/
theorem c8_unsupported_or_failed_load_witness :
    getUpgradeStepsFor (fun _ => Except.ok [wStepA]) "Vue" 1 4 = [] ∧
    hasUpgradePath (fun _ => Except.ok [wStepA]) "Vue" 1 4 = false ∧
    getUpgradeStepsFor (fun _ => Except.error "missing resource") "Next.JS" 1 4 = [] ∧
    hasUpgradePath (fun _ => Except.error "missing resource") "Next.JS" 1 4 = false :=
  c8_unsupported_or_failed_load (fun _ => Except.ok [wStepA])
    (fun _ => Except.error "missing resource") "Vue" "Next.JS" 1 4
    (by constructor <;> decide) (fun _ => ⟨"missing resource", rfl⟩)

/-- The duplicate-removal contract as the spec words it: keep the first step, in
input order, of each class of instructions that are equal after trimming and
lowercasing; drop the later members of the class; recurse on what is left. -/
def keepFirstOccurrences : List UpgradeStep → List UpgradeStep
  | [] => []
  | s :: rest =>
    s :: keepFirstOccurrences (rest.filter (fun t =>
      !(toLowerS (trimS t.instruction) = toLowerS (trimS s.instruction))))
termination_by l => l.length
decreasing_by
  simp only [List.length_cons]
  exact Nat.lt_succ_of_le (List.length_filter_le _ _)

theorem removeDuplicateInstructionsGo_sublist (seen : List String)
    (steps : List UpgradeStep) :
    List.Sublist (removeDuplicateInstructionsGo seen steps) steps := by
  induction steps generalizing seen with
  | nil => exact List.Sublist.refl []
  | cons s rest ih =>
    rw [removeDuplicateInstructionsGo]
    split
    · exact List.Sublist.cons s (ih seen)
    · exact List.Sublist.cons₂ s (ih _)

theorem removeDuplicateInstructionsGo_eq (steps : List UpgradeStep) (seen : List String) :
    removeDuplicateInstructionsGo seen steps =
      keepFirstOccurrences
        (steps.filter (fun t => !decide (hashInstruction t.instruction ∈ seen))) := by
  induction steps generalizing seen with
  | nil => simp [removeDuplicateInstructionsGo, keepFirstOccurrences]
  | cons s rest ih =>
    rw [removeDuplicateInstructionsGo]
    by_cases h : hashInstruction s.instruction ∈ seen
    · rw [if_pos h, List.filter_cons_of_neg (by simp [h]), ih seen]
    · rw [if_neg h, List.filter_cons_of_pos (by simp [h]), ih _, keepFirstOccurrences]
      congr 1
      rw [List.filter_filter]
      apply congrArg
      apply List.filter_congr
      intro t _
      show (!decide (hashInstruction t.instruction ∈ hashInstruction s.instruction :: seen)) = _
      simp only [List.mem_cons, Bool.decide_or, Bool.not_or, hashInstruction]

/-- C4: the duplicate-removal pass returns the subsequence keeping exactly the
first occurrence, in input order, of each instruction equivalence class (two
instructions being equivalent when they are equal after trimming and
lowercasing); no step is dropped for any other reason and the survivors keep
their relative order. -/
theorem c4_dedup_first_occurrence (steps : List UpgradeStep) :
    removeDuplicateInstructions steps = keepFirstOccurrences steps ∧
    List.Sublist (removeDuplicateInstructions steps) steps := by
  constructor
  · rw [removeDuplicateInstructions, removeDuplicateInstructionsGo_eq steps []]
    congr 1
    exact List.filter_eq_self.mpr (fun a _ => by simp)
  · exact removeDuplicateInstructionsGo_sublist [] steps

theorem replaceFirstPat_of_no_match {lit : String} {ci : Bool} {repl s : String}
    (h : hasMatchLV lit.data ci s.data = false) : replaceFirstPat lit ci repl s = s := by
  unfold replaceFirstPat
  rw [replaceFirstLV_of_no_match h]

/-- The instruction rewrite exactly as claim C3 words it: every trailing
"to X.Y(.Z)" phrase and every bare version-number token stripped (that is, a
global replace of both patterns), trimmed, then " to target" appended. -/
def claimRewriteInstruction (instruction : String) (targetVersion : Int) : String :=
  trimS (replaceAllPat "" false "" (replaceAllPat "to " false "" instruction)) ++
    " to " ++ toString targetVersion

/-- The description rewrite exactly as claim C3 words it: every occurrence of a
version-number token (optionally prefixed with "@^"), of the phrase
"version X.Y(.Z)" and of the phrase "to X.Y(.Z)" replaced by the literal target
version (the "@^" prefix itself kept, prefixed tokens first so the bare-token
pass only sees unprefixed ones). -/
def claimRewriteDescription (description : String) (targetVersion : Int) : String :=
  replaceAllPat "" false (toString targetVersion)
    (replaceAllPat "to " false ("to " ++ toString targetVersion)
      (replaceAllPat "version " false ("version " ++ toString targetVersion)
        (replaceAllPat "@^" false ("@^" ++ toString targetVersion) description)))

/-- A package-update step on which claim C3's rewrite and the source's rewrite
disagree: the instruction has two "to X.Y" phrases, the description a bare
version token. -/
def c3Step : UpgradeStep :=
  { instruction := "Update to 1.0 to 2.0"
    detailedDescription := "2.0"
    from' := 1
    to' := 2
    stepType := some "package-update" }

/-- Counterexample to C3: the source replaces only the first "to X.Y(.Z)" phrase
and first bare version token of the instruction (its regexes carry no `g` flag),
and it does not touch bare unprefixed version tokens in the description, so on
`c3Step` it disagrees with the claim's "every occurrence" rewrites. -/
theorem c3_counterexample :
    (consolidatePackageUpdates [c3Step] 4).map UpgradeStep.instruction =
      some "Update  to to 4" ∧
    claimRewriteInstruction c3Step.instruction 4 = "Update to 4" ∧
    (consolidatePackageUpdates [c3Step] 4).map UpgradeStep.instruction ≠
      some (claimRewriteInstruction c3Step.instruction 4) ∧
    (consolidatePackageUpdates [c3Step] 4).map UpgradeStep.detailedDescription =
      some "2.0" ∧
    claimRewriteDescription c3Step.detailedDescription 4 = "4" ∧
    (consolidatePackageUpdates [c3Step] 4).map UpgradeStep.detailedDescription ≠
      some (claimRewriteDescription c3Step.detailedDescription 4) := by
  refine ⟨by decide, by decide, by decide, by decide, by decide, by decide⟩

/-- C3 amended: the merged instruction equals the first member's instruction with
only the first (leftmost) "to X.Y(.Z)" phrase removed, then the first remaining
bare version-number token removed, trimmed, with " to target" appended; the
merged description equals the first member's description with every
"@^"-prefixed version token, every "version X.Y(.Z)" phrase and every
"to X.Y(.Z)" phrase rewritten to the target version, bare unprefixed version
tokens left unchanged.  When the instruction has no "to X.Y(.Z)" phrase and no
version token at all, it is simply trimmed and suffixed. -/
theorem c3_amended_package_text_rewrite (packageSteps : List UpgradeStep)
    (targetVersion : Int) (firstStep : UpgradeStep) (rest : List UpgradeStep)
    (h : packageSteps = firstStep :: rest) :
    ∃ merged, consolidatePackageUpdates packageSteps targetVersion = some merged ∧
      merged.instruction =
        trimS (replaceFirstPat "" false ""
            (replaceFirstPat "to " false "" firstStep.instruction)) ++
          " to " ++ toString targetVersion ∧
      merged.detailedDescription =
        replaceAllPat "to " false ("to " ++ toString targetVersion)
          (replaceAllPat "version " false ("version " ++ toString targetVersion)
            (replaceAllPat "@^" false ("@^" ++ toString targetVersion)
              firstStep.detailedDescription)) ∧
      (hasMatchLV "to ".data false firstStep.instruction.data = false →
        hasMatchLV "".data false firstStep.instruction.data = false →
        merged.instruction = trimS firstStep.instruction ++ " to " ++ toString targetVersion) := by
  subst h
  refine ⟨_, rfl, rfl, rfl, ?_⟩
  intro h1 h2
  show trimS (replaceFirstPat "" false ""
      (replaceFirstPat "to " false "" firstStep.instruction)) ++ _ ++ _ = _
  rw [replaceFirstPat_of_no_match h1, replaceFirstPat_of_no_match h2]

/-- A package-update step whose instruction holds no version pattern, for the
C3 witness. -/
def wStepC : UpgradeStep :=
  { instruction := "Upgrade the dependencies"
    detailedDescription := "bump pkg@^2.0 on version 2.0 going to 3.0"
    from' := 2
    to' := 3
    stepType := some "package-update" }

/-- Witness for the amended C3 on a concrete one-step group. -/
theorem c3_amended_package_text_rewrite_witness :
    ∃ merged, consolidatePackageUpdates [wStepC] 4 = some merged ∧
      merged.instruction =
        trimS (replaceFirstPat "" false ""
            (replaceFirstPat "to " false "" wStepC.instruction)) ++
          " to " ++ toString (4 : Int) ∧
      merged.detailedDescription =
        replaceAllPat "to " false ("to " ++ toString (4 : Int))
          (replaceAllPat "version " false ("version " ++ toString (4 : Int))
            (replaceAllPat "@^" false ("@^" ++ toString (4 : Int))
              wStepC.detailedDescription)) ∧
      (hasMatchLV "to ".data false wStepC.instruction.data = false →
        hasMatchLV "".data false wStepC.instruction.data = false →
        merged.instruction = trimS wStepC.instruction ++ " to " ++ toString (4 : Int)) :=
  c3_amended_package_text_rewrite [wStepC] 4 wStepC [] rfl

/-- The sort key of the final ordering: stepType priority, then `from`, then `to`. -/
def sortKeyOf (s : UpgradeStep) : Int × Int × Int :=
  (getStepTypePriority s.stepType, s.from', s.to')

theorem stepSortLE_iff (a b : UpgradeStep) :
    stepSortLE a b = true ↔
      getStepTypePriority a.stepType < getStepTypePriority b.stepType ∨
        (getStepTypePriority a.stepType = getStepTypePriority b.stepType ∧
          (a.from' < b.from' ∨ (a.from' = b.from' ∧ a.to' ≤ b.to'))) := by
  unfold stepSortLE
  split_ifs with h1 h2 <;> simp <;> omega

theorem stepSortLE_trans (a b c : UpgradeStep) (hab : stepSortLE a b)
    (hbc : stepSortLE b c) : stepSortLE a c = true := by
  rw [stepSortLE_iff] at *
  omega

theorem stepSortLE_total (a b : UpgradeStep) : stepSortLE a b || stepSortLE b a := by
  rw [Bool.or_eq_true, stepSortLE_iff, stepSortLE_iff]
  omega

theorem stepSortLE_of_key_eq {a b : UpgradeStep} (h : sortKeyOf a = sortKeyOf b) :
    stepSortLE a b = true := by
  unfold sortKeyOf at h
  rw [stepSortLE_iff]
  simp only [Prod.mk.injEq] at h
  omega

/-- C6: the pipeline's final output is the input of the sort stage put in
ascending order of the key (stepType priority by the fixed table with
unknown/absent = 10, then `from`, then `to`): it is sorted, it is a permutation
of the consolidated steps, the sort is stable (for every key value the steps
holding it appear in exactly their pre-sort relative order), and the pipeline
is deterministic. -/
theorem c6_stable_sort (catalog : List UpgradeStep) (fromVersion toVersion : Int) :
    (getUpgradeSteps catalog fromVersion toVersion).Pairwise
      (fun a b => stepSortLE a b = true) ∧
    (getUpgradeSteps catalog fromVersion toVersion).Perm
      (consolidateSimilarSteps (relevantSteps catalog fromVersion toVersion) toVersion) ∧
    (∀ key : Int × Int × Int,
      (getUpgradeSteps catalog fromVersion toVersion).filter
          (fun s => decide (sortKeyOf s = key)) =
        (consolidateSimilarSteps (relevantSteps catalog fromVersion toVersion)
            toVersion).filter (fun s => decide (sortKeyOf s = key))) ∧
    getUpgradeSteps catalog fromVersion toVersion =
      getUpgradeSteps catalog fromVersion toVersion := by
  set pre := consolidateSimilarSteps (relevantSteps catalog fromVersion toVersion) toVersion
    with hpre
  have hout : getUpgradeSteps catalog fromVersion toVersion = pre.mergeSort stepSortLE := rfl
  refine ⟨?_, ?_, ?_, rfl⟩
  · rw [hout]
    exact List.sorted_mergeSort stepSortLE_trans stepSortLE_total pre
  · rw [hout]
    exact List.mergeSort_perm pre stepSortLE
  · intro key
    rw [hout]
    have hall : ∀ s ∈ pre.filter (fun s => decide (sortKeyOf s = key)), sortKeyOf s = key := by
      intro s hs
      have := (List.mem_filter.mp hs).2
      simpa using this
    have hpair : (pre.filter (fun s => decide (sortKeyOf s = key))).Pairwise
        (fun a b => stepSortLE a b = true) := by
      apply List.pairwise_of_forall_mem_list
      intro a ha b hb
      exact stepSortLE_of_key_eq ((hall a ha).trans (hall b hb).symm)
    have hsub : List.Sublist (pre.filter (fun s => decide (sortKeyOf s = key)))
        (pre.mergeSort stepSortLE) :=
      List.sublist_mergeSort stepSortLE_trans stepSortLE_total hpair
        (List.filter_sublist pre)
    have hsub2 : List.Sublist (pre.filter (fun s => decide (sortKeyOf s = key)))
        ((pre.mergeSort stepSortLE).filter (fun s => decide (sortKeyOf s = key))) := by
      have := List.Sublist.filter (fun s => decide (sortKeyOf s = key)) hsub
      rwa [List.filter_filter, List.filter_congr (fun x _ => Bool.and_self _)] at this
    have hperm : ((pre.mergeSort stepSortLE).filter (fun s => decide (sortKeyOf s = key))).Perm
        (pre.filter (fun s => decide (sortKeyOf s = key))) :=
      (List.mergeSort_perm pre stepSortLE).filter _
    exact (hsub2.eq_of_length hperm.length_eq.symm).symm

theorem addToGroup_forall (Q : String → UpgradeStep → Prop)
    {m : List (String × List UpgradeStep)} {k : String} {s : UpgradeStep}
    (hm : ∀ p ∈ m, ∀ t ∈ p.2, Q p.1 t) (hs : Q k s) :
    ∀ p ∈ addToGroup k s m, ∀ t ∈ p.2, Q p.1 t := by
  induction m with
  | nil =>
    intro p hp t ht
    simp only [addToGroup, List.mem_singleton] at hp
    subst hp
    simp only [List.mem_singleton] at ht
    subst ht
    exact hs
  | cons q rest ih =>
    obtain ⟨k', g⟩ := q
    intro p hp t ht
    rw [addToGroup] at hp
    split_ifs at hp with hk
    · rcases List.mem_cons.mp hp with h | h
      · subst h
        rcases List.mem_append.mp ht with h2 | h2
        · exact hm (k', g) (List.mem_cons_self _ _) t h2
        · rw [List.mem_singleton] at h2
          subst h2
          exact hk ▸ hs
      · exact hm p (List.mem_cons_of_mem _ h) t ht
    · rcases List.mem_cons.mp hp with h | h
      · subst h
        exact hm (k', g) (List.mem_cons_self _ _) t ht
      · exact ih (fun r hr => hm r (List.mem_cons_of_mem _ hr)) p h t ht

theorem addToGroup_ne_nil {m : List (String × List UpgradeStep)} {k : String}
    {s : UpgradeStep} (hm : ∀ p ∈ m, p.2 ≠ []) :
    ∀ p ∈ addToGroup k s m, p.2 ≠ [] := by
  induction m with
  | nil =>
    intro p hp
    simp only [addToGroup, List.mem_singleton] at hp
    subst hp
    simp
  | cons q rest ih =>
    obtain ⟨k', g⟩ := q
    intro p hp
    rw [addToGroup] at hp
    split_ifs at hp with hk
    · rcases List.mem_cons.mp hp with h | h
      · subst h; simp
      · exact hm p (List.mem_cons_of_mem _ h)
    · rcases List.mem_cons.mp hp with h | h
      · subst h; exact hm (k', g) (List.mem_cons_self _ _)
      · exact ih (fun r hr => hm r (List.mem_cons_of_mem _ hr)) p h

theorem foldl_addToGroup_forall (Q : String → UpgradeStep → Prop)
    (key : UpgradeStep → String) (xs : List UpgradeStep)
    (init : List (String × List UpgradeStep))
    (hinit : ∀ p ∈ init, ∀ t ∈ p.2, Q p.1 t) (hxs : ∀ x ∈ xs, Q (key x) x) :
    ∀ p ∈ xs.foldl (fun m s => addToGroup (key s) s m) init, ∀ t ∈ p.2, Q p.1 t := by
  induction xs generalizing init with
  | nil => simpa using hinit
  | cons x rest ih =>
    simp only [List.foldl_cons]
    exact ih (addToGroup (key x) x init)
      (addToGroup_forall Q hinit (hxs x (List.mem_cons_self _ _)))
      (fun y hy => hxs y (List.mem_cons_of_mem _ hy))

theorem foldl_addToGroup_ne_nil (key : UpgradeStep → String) (xs : List UpgradeStep)
    (init : List (String × List UpgradeStep)) (hinit : ∀ p ∈ init, p.2 ≠ []) :
    ∀ p ∈ xs.foldl (fun m s => addToGroup (key s) s m) init, p.2 ≠ [] := by
  induction xs generalizing init with
  | nil => simpa using hinit
  | cons x rest ih =>
    simp only [List.foldl_cons]
    exact ih (addToGroup (key x) x init) (addToGroup_ne_nil hinit)

theorem fileGroups_mem (steps : List UpgradeStep) :
    ∀ p ∈ fileGroups steps, p.2 ≠ [] ∧ ∀ t ∈ p.2, t.affectedFile = some p.1 ∧ t ∈ steps := by
  intro p hp
  constructor
  · exact foldl_addToGroup_ne_nil _ _ [] (by simp) p hp
  · refine foldl_addToGroup_forall
      (fun k t => t.affectedFile = some k ∧ t ∈ steps)
      (fun s => s.affectedFile.getD "")
      (steps.filter hasAffectedFile) [] (by simp) ?_ p hp
    intro x hx
    have hmem := List.mem_filter.mp hx
    refine ⟨?_, hmem.1⟩
    rcases hf : x.affectedFile with _ | f
    · rw [hasAffectedFile, hf] at hmem
      simp at hmem
    · simp [hf]

theorem fileSortLE_trans (a b c : UpgradeStep) (h1 : fileSortLE a b)
    (h2 : fileSortLE b c) : fileSortLE a c = true := by
  unfold fileSortLE at *
  simp only [decide_eq_true_eq] at *
  omega

theorem fileSortLE_total (a b : UpgradeStep) : fileSortLE a b || fileSortLE b a := by
  unfold fileSortLE
  simp only [Bool.or_eq_true, decide_eq_true_eq]
  omega

theorem from_le_getLast_of_sorted :
    ∀ (l : List UpgradeStep) (hne : l ≠ []),
      l.Pairwise (fun a b => fileSortLE a b = true) →
      ∀ u ∈ l, u.from' ≤ (l.getLast hne).from'
  | [], hne, _, _, _ => absurd rfl hne
  | [x], _, _, u, hu => by
    rw [List.mem_singleton] at hu
    subst hu
    exact le_refl _
  | x :: y :: rest, _, hp, u, hu => by
    have hne2 : y :: rest ≠ [] := by simp
    rw [List.getLast_cons hne2]
    rcases List.mem_cons.mp hu with h | h
    · subst h
      have hrel := (List.pairwise_cons.mp hp).1
      have hmem := List.getLast_mem hne2
      have := hrel _ hmem
      rw [fileSortLE, decide_eq_true_eq] at this
      exact this
    · exact from_le_getLast_of_sorted (y :: rest) hne2 (List.pairwise_cons.mp hp).2 u h

theorem consolidateFileSteps_spec (g : List UpgradeStep) (fileName : String)
    (hne : g ≠ []) :
    ∃ merged, consolidateFileSteps g fileName = some merged ∧
      merged.affectedFile = some fileName ∧
      merged.from' ∈ g.map UpgradeStep.from' ∧
      (∀ s ∈ g, merged.from' ≤ s.from') ∧
      ∃ last ∈ g, merged.to' = last.to' ∧ ∀ s ∈ g, s.from' ≤ last.from' := by
  rw [consolidateFileSteps, if_neg (by simpa using hne)]
  have hperm := List.mergeSort_perm g fileSortLE
  have hsorted := List.sorted_mergeSort fileSortLE_trans fileSortLE_total g
  have hne2 : g.mergeSort fileSortLE ≠ [] := by
    intro h
    exact hne (List.eq_nil_of_length_eq_zero (hperm.length_eq.symm.trans (by rw [h]; rfl)))
  obtain ⟨s0, tail, hcons⟩ := List.exists_cons_of_ne_nil hne2
  have hmemiff : ∀ u : UpgradeStep, u ∈ g.mergeSort fileSortLE ↔ u ∈ g :=
    fun u => hperm.mem_iff
  have hheadI : (g.mergeSort fileSortLE).headI = s0 := by rw [hcons]; rfl
  have hlast : (g.mergeSort fileSortLE).getLastI =
      (g.mergeSort fileSortLE).getLast hne2 := by
    rw [List.getLastI_eq_getLast?, List.getLast?_eq_getLast _ hne2]
  refine ⟨_, rfl, rfl, ?_, ?_, ?_⟩
  · dsimp only
    rw [hheadI]
    exact List.mem_map_of_mem UpgradeStep.from'
      ((hmemiff s0).mp (hcons ▸ List.mem_cons_self s0 tail))
  · intro s hs
    dsimp only
    rw [hheadI]
    have hs2 : s ∈ g.mergeSort fileSortLE := (hmemiff s).mpr hs
    rw [hcons] at hs2
    rcases List.mem_cons.mp hs2 with h | h
    · subst h; exact le_refl _
    · have hrel := (List.pairwise_cons.mp (hcons ▸ hsorted)).1 s h
      rw [fileSortLE, decide_eq_true_eq] at hrel
      exact hrel
  · refine ⟨(g.mergeSort fileSortLE).getLast hne2,
      (hmemiff _).mp (List.getLast_mem hne2), ?_, ?_⟩
    · dsimp only
      rw [hlast]
    · intro s hs
      exact from_le_getLast_of_sorted _ hne2 hsorted s ((hmemiff s).mpr hs)

/-- C5: file consolidation passes steps without an affectedFile through
unchanged after the file-grouped results; a group of size 1 passes through
unchanged; a group of size ≥ 2 becomes exactly one step whose `from` is the
group's minimum `from`, whose `to` is the `to` of a member of maximal `from`
(the extremes of the stable sort of the group by `from`), and whose
affectedFile is the group's file name. -/
theorem c5_file_consolidation (steps : List UpgradeStep) :
    consolidateByAffectedFile steps =
      (fileGroups steps).flatMap fileGroupResult ++
        steps.filter (fun s => !hasAffectedFile s) ∧
    (∀ p ∈ fileGroups steps, ∀ t ∈ p.2, t.affectedFile = some p.1) ∧
    (∀ p ∈ fileGroups steps, p.2.length = 1 → fileGroupResult p = p.2) ∧
    (∀ p ∈ fileGroups steps, 2 ≤ p.2.length →
      ∃ merged, fileGroupResult p = [merged] ∧
        merged.affectedFile = some p.1 ∧
        merged.from' ∈ p.2.map UpgradeStep.from' ∧
        (∀ s ∈ p.2, merged.from' ≤ s.from') ∧
        ∃ last ∈ p.2, merged.to' = last.to' ∧ ∀ s ∈ p.2, s.from' ≤ last.from') := by
  refine ⟨rfl, ?_, ?_, ?_⟩
  · intro p hp t ht
    exact ((fileGroups_mem steps p hp).2 t ht).1
  · intro p hp h1
    rw [fileGroupResult, if_pos h1]
  · intro p hp h2
    have hne : p.2 ≠ [] := by
      intro h
      rw [h] at h2
      simp at h2
    obtain ⟨merged, hm, hfile, hmin_mem, hmin_le, hlast⟩ :=
      consolidateFileSteps_spec p.2 p.1 hne
    refine ⟨merged, ?_, hfile, hmin_mem, hmin_le, hlast⟩
    rw [fileGroupResult, if_neg (by omega), hm]
    rfl

/-- A configuration step on `app.config`, for the C5 witness. -/
def wStepD : UpgradeStep :=
  { instruction := "Set flag A"
    detailedDescription := "set A"
    from' := 1
    to' := 2
    stepType := some "configuration"
    affectedFile := some "app.config" }

/-- A second configuration step on `app.config`, for the C5 witness. -/
def wStepE : UpgradeStep :=
  { instruction := "Set flag B"
    detailedDescription := "set B"
    from' := 3
    to' := 5
    stepType := some "configuration"
    affectedFile := some "app.config" }

/-- Witness for C5 on a concrete two-step file group. -/
theorem c5_file_consolidation_witness :
    ∃ merged, fileGroupResult ("app.config", [wStepD, wStepE]) = [merged] ∧
      merged.affectedFile = some "app.config" ∧
      merged.from' ∈ [wStepD, wStepE].map UpgradeStep.from' ∧
      (∀ s ∈ [wStepD, wStepE], merged.from' ≤ s.from') ∧
      ∃ last ∈ [wStepD, wStepE], merged.to' = last.to' ∧
        ∀ s ∈ [wStepD, wStepE], s.from' ≤ last.from' :=
  (c5_file_consolidation [wStepD, wStepE]).2.2.2 ("app.config", [wStepD, wStepE])
    (by decide) (by decide)

theorem mem_addUniqueNonEmpty {acc : List String} {x y : String} :
    y ∈ addUniqueNonEmpty acc x ↔ y ∈ acc ∨ (x ≠ "" ∧ y = x) := by
  unfold addUniqueNonEmpty
  split_ifs with h1 h2
  · simp [h1]
  · constructor
    · intro h; exact Or.inl h
    · rintro (h | ⟨_, rfl⟩)
      · exact h
      · exact h2
  · simp [h1, List.mem_append]

theorem nodup_addUniqueNonEmpty {acc : List String} {x : String} (h : acc.Nodup) :
    (addUniqueNonEmpty acc x).Nodup := by
  unfold addUniqueNonEmpty
  split_ifs with h1 h2
  · exact h
  · exact h
  · rw [List.nodup_append]
    refine ⟨h, List.nodup_singleton x, ?_⟩
    intro a ha hax
    rw [List.mem_singleton] at hax
    exact h2 (hax ▸ ha)

theorem mem_getUniqueInstructions_fold (steps : List UpgradeStep) (acc : List String)
    (y : String) :
    y ∈ steps.foldl (fun a s => addUniqueNonEmpty a (baseInstructionOf s.instruction)) acc ↔
      y ∈ acc ∨ (y ≠ "" ∧ ∃ s ∈ steps, baseInstructionOf s.instruction = y) := by
  induction steps generalizing acc with
  | nil => simp
  | cons x rest ih =>
    rw [List.foldl_cons, ih, mem_addUniqueNonEmpty]
    constructor
    · rintro ((h | ⟨hne, rfl⟩) | ⟨hne, s, hs, rfl⟩)
      · exact Or.inl h
      · exact Or.inr ⟨hne, x, List.mem_cons_self _ _, rfl⟩
      · exact Or.inr ⟨hne, s, List.mem_cons_of_mem _ hs, rfl⟩
    · rintro (h | ⟨hne, s, hs, rfl⟩)
      · exact Or.inl (Or.inl h)
      · rcases List.mem_cons.mp hs with h | h
        · subst h
          exact Or.inl (Or.inr ⟨hne, rfl⟩)
        · exact Or.inr ⟨hne, s, h, rfl⟩

theorem mem_getUniqueInstructions (steps : List UpgradeStep) (y : String) :
    y ∈ getUniqueInstructions steps ↔
      y ≠ "" ∧ ∃ s ∈ steps, baseInstructionOf s.instruction = y := by
  rw [getUniqueInstructions, mem_getUniqueInstructions_fold]
  simp

theorem nodup_getUniqueInstructions_fold (steps : List UpgradeStep) (acc : List String)
    (h : acc.Nodup) :
    (steps.foldl (fun a s => addUniqueNonEmpty a (baseInstructionOf s.instruction)) acc).Nodup := by
  induction steps generalizing acc with
  | nil => exact h
  | cons x rest ih => exact ih _ (nodup_addUniqueNonEmpty h)

theorem nodup_getUniqueInstructions (steps : List UpgradeStep) :
    (getUniqueInstructions steps).Nodup :=
  nodup_getUniqueInstructions_fold steps [] (by simp)

theorem getUniqueInstructions_length_of_perm {l1 l2 : List UpgradeStep}
    (h : l1.Perm l2) :
    (getUniqueInstructions l1).length = (getUniqueInstructions l2).length := by
  have hperm : (getUniqueInstructions l1).Perm (getUniqueInstructions l2) := by
    rw [List.perm_ext_iff_of_nodup (nodup_getUniqueInstructions l1)
      (nodup_getUniqueInstructions l2)]
    intro y
    rw [mem_getUniqueInstructions, mem_getUniqueInstructions]
    constructor
    · rintro ⟨hne, s, hs, rfl⟩
      exact ⟨hne, s, h.mem_iff.mp hs, rfl⟩
    · rintro ⟨hne, s, hs, rfl⟩
      exact ⟨hne, s, h.mem_iff.mpr hs, rfl⟩
  exact hperm.length_eq

/-- The base-instruction set exactly as claim C7 words it: strip the version
phrases and tokens from each member's instruction, trim, and deduplicate as a
set — with no discarding of empty results. -/
def claimBaseInstructionSet (steps : List UpgradeStep) : List String :=
  steps.foldl (fun acc s =>
    if baseInstructionOf s.instruction ∈ acc then acc
    else acc ++ [baseInstructionOf s.instruction]) []

/-- A configuration step whose instruction is a pure version token, so its base
instruction is empty. -/
def c7StepA : UpgradeStep :=
  { instruction := "2.0"
    detailedDescription := "alpha"
    from' := 1
    to' := 2
    stepType := some "configuration"
    affectedFile := some "next.config.js" }

/-- A second such step for the same file. -/
def c7StepB : UpgradeStep :=
  { instruction := "3.0"
    detailedDescription := "beta"
    from' := 2
    to' := 3
    stepType := some "configuration"
    affectedFile := some "next.config.js" }

/-- Counterexample to C7: on a group whose members' instructions are pure
version tokens, the claim's base-instruction derivation yields the single
element "" (exactly one distinct base instruction), yet the source discards
empty base instructions, gets an empty set, and emits the
"multiple configuration changes" text, not "Update {file} configuration". -/
theorem c7_counterexample :
    claimBaseInstructionSet [c7StepA, c7StepB] = [""] ∧
    ∃ merged, consolidateFileSteps [c7StepA, c7StepB] "next.config.js" = some merged ∧
      merged.instruction = "Update next.config.js with multiple configuration changes" ∧
      merged.instruction ≠ "Update next.config.js configuration" := by
  refine ⟨by decide, ?_⟩
  rw [consolidateFileSteps, if_neg (by decide), List.mergeSort_of_sorted (by decide)]
  exact ⟨_, rfl, by decide, by decide⟩

/-- C7 amended: the merged instruction is "Update {fileName} configuration" when
deriving base instructions (stripping the version phrases and tokens, trimming,
discarding empty results and deduplicating as a set) yields exactly one distinct
base instruction, and "Update {fileName} with multiple configuration changes"
when it yields zero or more than one; two members with identical (and
non-vacuous) normalized instructions still form one base class of size 1. -/
theorem c7_amended_merged_instruction (fileSteps : List UpgradeStep)
    (fileName : String) (merged : UpgradeStep)
    (h : consolidateFileSteps fileSteps fileName = some merged) :
    ((getUniqueInstructions fileSteps).length = 1 →
      merged.instruction = "Update " ++ fileName ++ " configuration") ∧
    ((getUniqueInstructions fileSteps).length ≠ 1 →
      merged.instruction = "Update " ++ fileName ++ " with multiple configuration changes") ∧
    (∀ s1 s2, fileSteps = [s1, s2] →
      baseInstructionOf s1.instruction = baseInstructionOf s2.instruction →
      baseInstructionOf s1.instruction ≠ "" →
      merged.instruction = "Update " ++ fileName ++ " configuration") := by
  rw [consolidateFileSteps] at h
  split_ifs at h with hlen0
  have hmerged := Option.some.inj h
  have hinstr : merged.instruction =
      createConsolidatedInstruction
        (getUniqueInstructions (fileSteps.mergeSort fileSortLE)) fileName :=
    (congrArg UpgradeStep.instruction hmerged).symm
  have hlen : (getUniqueInstructions (fileSteps.mergeSort fileSortLE)).length =
      (getUniqueInstructions fileSteps).length :=
    getUniqueInstructions_length_of_perm (List.mergeSort_perm fileSteps fileSortLE)
  have hone : (getUniqueInstructions fileSteps).length = 1 →
      merged.instruction = "Update " ++ fileName ++ " configuration" := by
    intro h1
    rw [hinstr, createConsolidatedInstruction, if_pos (by rw [hlen]; exact h1)]
  refine ⟨hone, ?_, ?_⟩
  · intro h1
    rw [hinstr, createConsolidatedInstruction, if_neg (by rw [hlen]; exact h1)]
  · intro s1 s2 hfs heq hne
    apply hone
    subst hfs
    have : getUniqueInstructions [s1, s2] = [baseInstructionOf s1.instruction] := by
      simp [getUniqueInstructions, addUniqueNonEmpty, ← heq, hne]
    rw [this]
    rfl

/-- Witness for the amended C7 on a concrete two-step group with two distinct
non-empty base instructions. -/
theorem c7_amended_merged_instruction_witness :
    ∃ merged, consolidateFileSteps [wStepD, wStepE] "app.config" = some merged ∧
      merged.instruction = "Update app.config with multiple configuration changes" := by
  cases hc : consolidateFileSteps [wStepD, wStepE] "app.config" with
  | none =>
    rw [consolidateFileSteps, if_neg (by decide)] at hc
    exact absurd hc (by simp)
  | some merged =>
    exact ⟨merged, rfl,
      (c7_amended_merged_instruction [wStepD, wStepE] "app.config" merged hc).2.1
        (by decide)⟩

theorem consolidatePackageUpdates_inv (g : List UpgradeStep) (t : Int)
    (merged : UpgradeStep) (hm : consolidatePackageUpdates g t = some merged)
    (h : ∀ s ∈ g, s.from' ≤ s.to' ∧ s.to' ≤ t) :
    merged.from' ≤ merged.to' ∧ merged.to' ≤ t := by
  match g with
  | [] => exact absurd hm (by rw [consolidatePackageUpdates]; simp)
  | first :: rest =>
    have hmerged := Option.some.inj hm
    have hfrom : merged.from' = minFromList (first :: rest) :=
      (congrArg UpgradeStep.from' hmerged).symm
    have hto : merged.to' = t := (congrArg UpgradeStep.to' hmerged).symm
    have hmin : minFromList (first :: rest) ≤ first.from' :=
      minFromList_le (first :: rest) first (List.mem_cons_self _ _)
    have hfirst := h first (List.mem_cons_self _ _)
    constructor
    · rw [hfrom, hto]
      omega
    · rw [hto]

theorem consolidateByType_inv (steps : List UpgradeStep) (t : Int)
    (h : ∀ s ∈ steps, s.from' ≤ s.to' ∧ s.to' ≤ t) :
    ∀ u ∈ consolidateByType steps t, u.from' ≤ u.to' ∧ u.to' ≤ t := by
  intro u hu
  rw [consolidateByType, List.mem_append] at hu
  rcases hu with hu | hu
  · rw [List.mem_flatMap] at hu
    obtain ⟨p, hp, hu⟩ := hu
    have hgmem : ∀ x ∈ p.2, x ∈ steps := fun x hx =>
      foldl_addToGroup_forall (fun _ y => y ∈ steps)
        (fun s => s.stepType.getD "") (steps.filter consolidatableStep) []
        (by simp) (fun y hy => (List.mem_filter.mp hy).1) p hp x hx
    rw [typeGroupResult] at hu
    split_ifs at hu with hpkg
    · cases hc : consolidatePackageUpdates p.2 t with
      | none => rw [hc] at hu; simp at hu
      | some merged =>
        rw [hc] at hu
        rw [Option.toList_some, List.mem_singleton] at hu
        rw [hu]
        exact consolidatePackageUpdates_inv p.2 t merged hc
          (fun s hs => h s (hgmem s hs))
    · have hsub : List.Sublist (removeDuplicateInstructions p.2) p.2 :=
        removeDuplicateInstructionsGo_sublist [] p.2
      exact h u (hgmem u (hsub.subset hu))
  · exact h u (List.mem_filter.mp hu).1

theorem consolidateByAffectedFile_inv (steps : List UpgradeStep) (t : Int)
    (h : ∀ s ∈ steps, s.from' ≤ s.to' ∧ s.to' ≤ t) :
    ∀ u ∈ consolidateByAffectedFile steps, u.from' ≤ u.to' ∧ u.to' ≤ t := by
  intro u hu
  rw [consolidateByAffectedFile, List.mem_append] at hu
  rcases hu with hu | hu
  · rw [List.mem_flatMap] at hu
    obtain ⟨p, hp, hu⟩ := hu
    have hgmem : ∀ x ∈ p.2, x ∈ steps := fun x hx =>
      ((fileGroups_mem steps p hp).2 x hx).2
    have hne : p.2 ≠ [] := (fileGroups_mem steps p hp).1
    rw [fileGroupResult] at hu
    split_ifs at hu with h1
    · exact h u (hgmem u hu)
    · obtain ⟨merged, hm, _, _, hmin, last, hlastmem, hto, hmax⟩ :=
        consolidateFileSteps_spec p.2 p.1 hne
      rw [hm, Option.toList_some, List.mem_singleton] at hu
      rw [hu]
      have hlast := h last (hgmem last hlastmem)
      constructor
      · have h2 := hmin last hlastmem
        omega
      · rw [hto]
        exact hlast.2
  · exact h u (List.mem_filter.mp hu).1

/-- C10: assuming every catalog step satisfies `from ≤ to`, every step in the
full pipeline's output (filter, type consolidation, file consolidation, sort)
also satisfies `from ≤ to`. -/
theorem c10_pipeline_preserves_from_le_to (catalog : List UpgradeStep)
    (fromVersion toVersion : Int) (hinv : ∀ s ∈ catalog, s.from' ≤ s.to') :
    ∀ u ∈ getUpgradeSteps catalog fromVersion toVersion, u.from' ≤ u.to' := by
  intro u hu
  rw [getUpgradeSteps, List.mem_mergeSort] at hu
  have h0 : ∀ s ∈ relevantSteps catalog fromVersion toVersion,
      s.from' ≤ s.to' ∧ s.to' ≤ toVersion := by
    intro s hs
    have hm := List.mem_filter.mp hs
    refine ⟨hinv s hm.1, ?_⟩
    have h2 := hm.2
    simp only [Bool.and_eq_true, decide_eq_true_eq] at h2
    exact h2.2
  have h1 := consolidateByType_inv _ toVersion h0
  have h2 := consolidateByAffectedFile_inv _ toVersion h1
  exact (h2 u hu).1

/-- Witness for C10 on a concrete catalog and window. -/
theorem c10_pipeline_preserves_from_le_to_witness :
    (∀ u ∈ getUpgradeSteps [wStepA, wStepB] 1 4, u.from' ≤ u.to') ∧
    wStepA.from' ≤ wStepA.to' :=
  ⟨c10_pipeline_preserves_from_le_to [wStepA, wStepB] 1 4 (by decide), by decide⟩
